import Mathlib

/-!
Verification of the CoDiPack Jacobian reuse tape
(`src/include/codi/tapes/jacobianReuseTape.hpp`) against its
natural-language specification.

The tape is embedded shallowly: the co-indexed data streams
(statements, Jacobian entries, low-level-function tokens and byte data)
become lists, positions become tuples of per-stream offsets, and the
replay / editing loops of `JacobianReuseTape` become structurally
recursive Lean functions that mirror the C++ loops statement by
statement.  Helper routines that live in files of this repository that
are not part of `src/` (the base class `JacobianBaseTape`, `config.h`,
the common tape implementation) are modelled from the specification and
carry a doc comment starting with `Modelled from the spec:`.
-/

/-- Modelled from the spec: `Config::ArgumentSize` carries a reserved
sentinel value meaning "this is not a normal statement but an
external-function block marker" (`Config::StatementLowLevelFunctionTag`
from `config.h`, which is not part of `src/`). The concrete value is
irrelevant; only its distinctness from normal argument counts matters. -/
def statementLowLevelFunctionTag : Nat := 255

/-- A position in the recorded sequence: one offset per data stream
(statement stream, Jacobian stream, low-level-function token stream,
fixed byte stream, dynamic byte stream).  This mirrors the nested
position tuples handed to `internalEvaluateForward_EvalStatements` /
`internalEvaluateReverse_EvalStatements` as `curStmtPos`,
`curJacobianPos`, `curLLFTokenDataPos`, `curFixedDataPos` and
`curDynamicDataPos`. -/
structure Position where
  stmt : Nat
  jac : Nat
  token : Nat
  fixedB : Nat
  dynB : Nat
deriving DecidableEq

/-- The recorded content of a `JacobianReuseTape`: the co-indexed data
streams.  `lhsIdentifiers` and `numberOfJacobians` are the two entries
of the statement stream (see `pushStmtData`), `rhsJacobians` and
`rhsIdentifiers` the two entries of the Jacobian stream, and the last
three streams hold the low-level (external) function blocks. -/
structure Tape where
  lhsIdentifiers : List Nat
  numberOfJacobians : List Nat
  rhsJacobians : List Int
  rhsIdentifiers : List Nat
  llfTokens : List Nat
  llfFixedData : List Nat
  llfDynData : List Nat
deriving DecidableEq

/-- Modelled from the spec: a registered external-function callback
entry (the callback table of `lowLevelFunctionEntry.hpp` is not part of
`src/`).  Per the spec, fixed bytes have a size computable from the
token alone, dynamic bytes require a query call (here a function of the
fixed bytes), and the entry exposes forward-apply and reverse-apply
call modes that transform the adjoint/tangent vector. The size-count
call mode is non-mutating and is represented by the pure fields
`fixedSize` and `dynSize`. -/
structure LLFEntry where
  fixedSize : Nat
  dynSize : List Nat → Nat
  fwdApply : List Nat → List Nat → (Nat → Int) → (Nat → Int)
  revApply : List Nat → List Nat → (Nat → Int) → (Nat → Int)

/-- The external-function callback table, keyed by token. -/
def LLFEnv : Type := Nat → LLFEntry

/-- Adjoint/tangent vector as handed to the evaluation routines: a raw
identifier-indexed store (the C++ code receives `Adjoint* adjointVector`
whose sizing is the caller's obligation). -/
def AdjVec : Type := Nat → Int

/-- Pointwise update `adjointVector[i] = v`. -/
def updateAdj (a : AdjVec) (i : Nat) (v : Int) : AdjVec :=
  fun j => if j = i then v else a j

/-- Contiguous slice of length `n` starting at offset `a`. -/
def sliceL (L : List α) (a n : Nat) : List α :=
  (L.drop a).take n

/-- The `n` Jacobian entries starting at stream offset `a`, as
(partial derivative, argument identifier) pairs. -/
def jacPairs (t : Tape) (a n : Nat) : List (Int × Nat) :=
  (List.range n).map fun k => (t.rhsJacobians.getD (a + k) 0, t.rhsIdentifiers.getD (a + k) 0)

/-- Modelled from the spec: `JacobianBaseTape::incrementAdjoints`
(the base class is not part of `src/`).  Distributes the target's
adjoint to each argument: `adjoint[argId_i] += partial_i *
targetAdjoint`. -/
def incrementAdjoints (adj : AdjVec) (lhsAdjoint : Int) (args : List (Int × Nat)) : AdjVec :=
  args.foldl (fun a pa => updateAdj a pa.2 (a pa.2 + pa.1 * lhsAdjoint)) adj

/-- Modelled from the spec: `JacobianBaseTape::incrementTangents`
(the base class is not part of `src/`).  Computes the target's tangent
as the weighted sum of argument tangents `Σ partial_i *
tangent[argId_i]`. -/
def incrementTangents (adj : AdjVec) (args : List (Int × Nat)) : Int :=
  args.foldl (fun s pa => s + pa.1 * adj pa.2) 0

/-- One iteration of the while loop of
`JacobianReuseTape::internalEvaluateReverse_EvalStatements`:
`curStmtPos -= 1`; if the argument count is the low-level-function
sentinel, the registered reverse callback is invoked (consuming the
token and its fixed/dynamic bytes in reverse direction); otherwise the
target's current adjoint is read, its slot is zeroed, and the adjoint
is distributed to the arguments via `incrementAdjoints`. -/
def revStep (t : Tape) (env : LLFEnv) (cur : Position) (adj : AdjVec) : Position × AdjVec :=
  let s := cur.stmt - 1
  let argsSize := t.numberOfJacobians.getD s 0
  if argsSize = statementLowLevelFunctionTag then
    let tok := t.llfTokens.getD (cur.token - 1) 0
    let entry := env tok
    let fs := entry.fixedSize
    let fixedBytes := sliceL t.llfFixedData (cur.fixedB - fs) fs
    let ds := entry.dynSize fixedBytes
    let dynBytes := sliceL t.llfDynData (cur.dynB - ds) ds
    (⟨s, cur.jac, cur.token - 1, cur.fixedB - fs, cur.dynB - ds⟩,
      entry.revApply fixedBytes dynBytes adj)
  else
    let lhs := t.lhsIdentifiers.getD s 0
    let lhsAdjoint := adj lhs
    let adjZeroed := updateAdj adj lhs 0
    (⟨s, cur.jac - argsSize, cur.token, cur.fixedB, cur.dynB⟩,
      incrementAdjoints adjZeroed lhsAdjoint (jacPairs t (cur.jac - argsSize) argsSize))

/-- The while loop `while (curStmtPos > endStmtPos)` of
`internalEvaluateReverse_EvalStatements`, with an explicit iteration
bound (the statement cursor strictly decreases each iteration, so
`cur.stmt` iterations always suffice). -/
def evalRevLoop (t : Tape) (env : LLFEnv) (endStmt : Nat) :
    Nat → Position → AdjVec → Position × AdjVec
  | 0, cur, adj => (cur, adj)
  | n + 1, cur, adj =>
    if endStmt < cur.stmt then
      let st := revStep t env cur adj
      evalRevLoop t env endStmt n st.1 st.2
    else
      (cur, adj)

/-- Reverse evaluation of the recorded range from `cur` down to `endP`
(`JacobianReuseTape::internalEvaluateReverse_EvalStatements`). Only the
statement-stream component of the end position is consulted by the
loop condition, as in the C++ code. -/
def evalRev (t : Tape) (env : LLFEnv) (endP cur : Position) (adj : AdjVec) :
    Position × AdjVec :=
  evalRevLoop t env endP.stmt cur.stmt cur adj

/-- One iteration of the while loop of
`JacobianReuseTape::internalEvaluateForward_EvalStatements`: if the
argument count is the low-level-function sentinel, the registered
forward callback is invoked; otherwise the target's tangent is computed
by `incrementTangents` and the target's tangent slot is overwritten
with it. -/
def fwdStep (t : Tape) (env : LLFEnv) (cur : Position) (adj : AdjVec) : Position × AdjVec :=
  let argsSize := t.numberOfJacobians.getD cur.stmt 0
  if argsSize = statementLowLevelFunctionTag then
    let tok := t.llfTokens.getD cur.token 0
    let entry := env tok
    let fs := entry.fixedSize
    let fixedBytes := sliceL t.llfFixedData cur.fixedB fs
    let ds := entry.dynSize fixedBytes
    let dynBytes := sliceL t.llfDynData cur.dynB ds
    (⟨cur.stmt + 1, cur.jac, cur.token + 1, cur.fixedB + fs, cur.dynB + ds⟩,
      entry.fwdApply fixedBytes dynBytes adj)
  else
    let lhs := t.lhsIdentifiers.getD cur.stmt 0
    let lhsTangent := incrementTangents adj (jacPairs t cur.jac argsSize)
    (⟨cur.stmt + 1, cur.jac + argsSize, cur.token, cur.fixedB, cur.dynB⟩,
      updateAdj adj lhs lhsTangent)

/-- The while loop `while (curStmtPos < endStmtPos)` of
`internalEvaluateForward_EvalStatements`, with an explicit iteration
bound. -/
def evalFwdLoop (t : Tape) (env : LLFEnv) (endStmt : Nat) :
    Nat → Position → AdjVec → Position × AdjVec
  | 0, cur, adj => (cur, adj)
  | n + 1, cur, adj =>
    if cur.stmt < endStmt then
      let st := fwdStep t env cur adj
      evalFwdLoop t env endStmt n st.1 st.2
    else
      (cur, adj)

/-- Forward evaluation of the recorded range from `cur` up to `endP`
(`JacobianReuseTape::internalEvaluateForward_EvalStatements`). -/
def evalFwd (t : Tape) (env : LLFEnv) (endP cur : Position) (adj : AdjVec) :
    Position × AdjVec :=
  evalFwdLoop t env endP.stmt (endP.stmt - cur.stmt) cur adj

/-- The zero position (`getZeroPosition`): all stream offsets zero. -/
def zeroPosition : Position := ⟨0, 0, 0, 0, 0⟩

/-- The current end position of a tape (`getPosition`): the lengths of
all data streams. -/
def getPosition (t : Tape) : Position :=
  ⟨t.lhsIdentifiers.length, t.rhsJacobians.length, t.llfTokens.length,
    t.llfFixedData.length, t.llfDynData.length⟩

/-- Number of recorded statements of a tape. -/
def stmtCount (t : Tape) : Nat := t.lhsIdentifiers.length

/-- Advance a position past the statement it points at: the
cursor-update part of one forward evaluation step (no adjoint data is
involved; sizes of a low-level-function block are determined by the
token and the fixed bytes, exactly as in the evaluation and append
loops). -/
def posStep (t : Tape) (env : LLFEnv) (p : Position) : Position :=
  let argsSize := t.numberOfJacobians.getD p.stmt 0
  if argsSize = statementLowLevelFunctionTag then
    let tok := t.llfTokens.getD p.token 0
    let fs := (env tok).fixedSize
    let fixedBytes := sliceL t.llfFixedData p.fixedB fs
    let ds := (env tok).dynSize fixedBytes
    ⟨p.stmt + 1, p.jac, p.token + 1, p.fixedB + fs, p.dynB + ds⟩
  else
    ⟨p.stmt + 1, p.jac + argsSize, p.token, p.fixedB, p.dynB⟩

/-- The position snapshot after `k` recorded statements.  Positions
"taken from one recording" (via `getPosition` during recording) are
exactly the positions of this form. -/
def posAt (t : Tape) (env : LLFEnv) : Nat → Position
  | 0 => zeroPosition
  | k + 1 => posStep t env (posAt t env k)

/-- Well-formedness of a recording: the statement and Jacobian streams
are co-indexed pairs of equal length, the offsets accumulated over all
recorded statements exactly exhaust every stream, and
low-level-function marker statements carry the default (zero) target
identifier that `pushLowLevelFunction` records. -/
def Wf (t : Tape) (env : LLFEnv) : Prop :=
  t.numberOfJacobians.length = t.lhsIdentifiers.length ∧
  t.rhsIdentifiers.length = t.rhsJacobians.length ∧
  posAt t env (stmtCount t) = getPosition t ∧
  (∀ s, s < stmtCount t → t.numberOfJacobians.getD s 0 = statementLowLevelFunctionTag →
    t.lhsIdentifiers.getD s 0 = 0)

/-- `JacobianReuseTape::pushStmtData`: both arguments are pushed to the
statement stream. -/
def pushStmtData (t : Tape) (index : Nat) (numberOfArguments : Nat) : Tape :=
  { t with
    lhsIdentifiers := t.lhsIdentifiers ++ [index],
    numberOfJacobians := t.numberOfJacobians ++ [numberOfArguments] }

/-- One `jacobianData.pushData(jacobian, identifier)` call: pushes one
(partial derivative, argument identifier) pair onto the Jacobian
stream. -/
def pushJacobianData (t : Tape) (jacobian : Int) (identifier : Nat) : Tape :=
  { t with
    rhsJacobians := t.rhsJacobians ++ [jacobian],
    rhsIdentifiers := t.rhsIdentifiers ++ [identifier] }

/-- Modelled from the spec: `pushLowLevelFunction` of the common tape
implementation (not part of `src/`) pushes a statement with the
sentinel argument count (and a default-constructed target identifier),
then the token, and reserves the declared fixed/dynamic byte ranges,
which the caller then fills; here the filled byte ranges are passed
directly. -/
def pushLowLevelFunction (t : Tape) (token : Nat) (fixedBytes dynBytes : List Nat) : Tape :=
  { t with
    lhsIdentifiers := t.lhsIdentifiers ++ [0],
    numberOfJacobians := t.numberOfJacobians ++ [statementLowLevelFunctionTag],
    llfTokens := t.llfTokens ++ [token],
    llfFixedData := t.llfFixedData ++ fixedBytes,
    llfDynData := t.llfDynData ++ dynBytes }

/-- The statement-copy loop `JacobianReuseTape::internalAppend`, driven
with an explicit iteration bound: for each statement of the source
range, an ordinary statement is re-pushed via `pushStmtData` followed
by one Jacobian push per argument, and a low-level-function block is
copied byte-for-byte (token, fixed bytes, dynamic bytes; sizes obtained
through the non-mutating count call mode, i.e. the pure
`fixedSize`/`dynSize` fields of the callback entry, using temporary
cursors). -/
def internalAppendLoop (src : Tape) (env : LLFEnv) (endStmt : Nat) :
    Nat → Position → Tape → Tape
  | 0, _, dst => dst
  | n + 1, cur, dst =>
    if cur.stmt < endStmt then
      let argsSize := src.numberOfJacobians.getD cur.stmt 0
      if argsSize = statementLowLevelFunctionTag then
        let tok := src.llfTokens.getD cur.token 0
        let fs := (env tok).fixedSize
        let fixedBytes := sliceL src.llfFixedData cur.fixedB fs
        let ds := (env tok).dynSize fixedBytes
        let dynBytes := sliceL src.llfDynData cur.dynB ds
        let dst2 := pushLowLevelFunction dst tok fixedBytes dynBytes
        internalAppendLoop src env endStmt n
          ⟨cur.stmt + 1, cur.jac, cur.token + 1, cur.fixedB + fs, cur.dynB + ds⟩ dst2
      else
        let dst2 := pushStmtData dst (src.lhsIdentifiers.getD cur.stmt 0) argsSize
        let dst3 := (jacPairs src cur.jac argsSize).foldl
          (fun d pr => pushJacobianData d pr.1 pr.2) dst2
        internalAppendLoop src env endStmt n
          ⟨cur.stmt + 1, cur.jac + argsSize, cur.token, cur.fixedB, cur.dynB⟩ dst3
    else
      dst

/-- `JacobianReuseTape::append(srcTape, start, end)`: drives
`internalAppend` forward over the source range, pushing everything onto
the destination tape `dst` (the destination adjoint data is untouched:
no adjoint vector is involved at all). -/
def append (dst : Tape) (env : LLFEnv) (srcTape : Tape) (start endP : Position) : Tape :=
  internalAppendLoop srcTape env endP.stmt (endP.stmt - start.stmt) start dst

/-- Modelled from the spec: `resetTo(start)` of the common tape
implementation (not part of `src/`) truncates every recorded stream back
to the given position. -/
def resetTo (t : Tape) (p : Position) : Tape :=
  ⟨t.lhsIdentifiers.take p.stmt, t.numberOfJacobians.take p.stmt,
    t.rhsJacobians.take p.jac, t.rhsIdentifiers.take p.jac,
    t.llfTokens.take p.token, t.llfFixedData.take p.fixedB, t.llfDynData.take p.dynB⟩

/-- Modelled from the spec: `reset()` of the common tape implementation
(not part of `src/`) resets the tape to its empty state, i.e. to the
zero position. -/
def reset (t : Tape) : Tape := resetTo t zeroPosition

/-- `JacobianReuseTape::erase(start, end, emptyTape)`: stores the tail
after the erased part in the helper tape, resets the tape to before the
erased part, re-appends the tail from the helper (from the helper's
zero position to its position), and finally resets the helper.  Returns
the edited tape and the helper's final state. -/
def erase (t : Tape) (env : LLFEnv) (start endP : Position) (emptyTape : Tape) :
    Tape × Tape :=
  let helper := append emptyTape env t endP (getPosition t)
  let t2 := resetTo t start
  let t3 := append t2 env helper zeroPosition (getPosition helper)
  (t3, reset helper)

/-- The empty tape, as instantiated by `erase(start, end)` for its
temporary helper (`JacobianReuseTape emptyTape;`). -/
def emptyTape : Tape := ⟨[], [], [], [], [], [], []⟩

/-- `JacobianReuseTape::erase(start, end)`: instantiates a temporary
empty tape and delegates to the three-argument `erase`. -/
def eraseSimple (t : Tape) (env : LLFEnv) (start endP : Position) : Tape :=
  (erase t env start endP emptyTape).1

/-- The statement-stream walk of
`JacobianReuseTape::clearAdjoints(start, end)`: `forEachReverse` over
the statement entries of the range applies `clearFunc`, which zeroes
the target identifier's adjoint slot when the identifier is below the
snapshotted adjoint-vector size.  The tape-owned adjoint vector is a
sized store, here a list. -/
def clearAdjointsLoop (t : Tape) (adjointsSize startStmt : Nat) :
    Nat → List Int → List Int
  | 0, adjoints => adjoints
  | c + 1, adjoints =>
    let index := t.lhsIdentifiers.getD (startStmt + c) 0
    clearAdjointsLoop t adjointsSize startStmt c
      (if index < adjointsSize then adjoints.set index 0 else adjoints)

/-- `JacobianReuseTape::clearAdjoints(start, end)`: snapshots the
adjoint-vector size, extracts the statement-stream components of the
two positions and walks the statement stream in reverse, zeroing
in-bounds target slots.  Only the statement stream is read; the
Jacobian stream is not consulted. -/
def clearAdjoints (t : Tape) (adjoints : List Int) (start endP : Position) : List Int :=
  clearAdjointsLoop t adjoints.length start.stmt (endP.stmt - start.stmt) adjoints

/-- Bounds-checking policy of `GradientAccessTapeInterface`
(`gradientAccessTapeInterface.hpp`, lines 79-82). -/
inductive BoundsChecking where
  | False
  | True
deriving DecidableEq

/-- The tape-owned adjoint vector as used by the gradient access
interface: a sized store of gradient values, slot 0 being the reserved
dummy slot. -/
structure Adjoints where
  data : List Int
deriving DecidableEq

/-- Modelled from the spec: resizing of the internal adjoint vector
(the implementation behind `GradientAccessTapeInterface` is not part of
`src/`): grows the vector with zero-initialized gradients so that the
given identifier is in bounds. -/
def resizeAdjoints (a : Adjoints) (n : Nat) : Adjoints :=
  if n ≤ a.data.length then a
  else ⟨a.data ++ List.replicate (n - a.data.length) 0⟩

/-- Modelled from the spec: `getGradient(identifier, boundsChecking)`.
With bounds checking (the default), if no adjoint variable with the
given identifier exists, the dummy slot `adjoints[0]` is returned;
without bounds checking the slot is accessed directly. -/
def getGradient (a : Adjoints) (identifier : Nat)
    (boundsChecking : BoundsChecking := BoundsChecking.True) : Int :=
  match boundsChecking with
  | BoundsChecking.True =>
    if identifier < a.data.length then a.data.getD identifier 0 else a.data.getD 0 0
  | BoundsChecking.False => a.data.getD identifier 0

/-- Modelled from the spec: `setGradient(identifier, gradient,
boundsChecking)`.  With bounds checking (the default), if the internal
adjoint vector is not large enough for the given identifier, it is
implicitly resized; then the slot is written. -/
def setGradient (a : Adjoints) (identifier : Nat) (gradient : Int)
    (boundsChecking : BoundsChecking := BoundsChecking.True) : Adjoints :=
  match boundsChecking with
  | BoundsChecking.True => ⟨(resizeAdjoints a (identifier + 1)).data.set identifier gradient⟩
  | BoundsChecking.False => ⟨a.data.set identifier gradient⟩

/-- The statically visible properties of an index manager
(`IndexManagerInterface::IsLinear`). -/
structure IndexManagerProps where
  IsLinear : Bool

/-- An instantiation of `JacobianReuseTape` over an index manager.  The
field `staticAssertReuse` embeds the compile-time check
`CODI_STATIC_ASSERT(!IndexManager::IsLinear, ...)` at line 82 of
`jacobianReuseTape.hpp`: an instantiation only exists together with
evidence that the index manager is not linear, so the configuration is
rejected before any recording can occur. -/
structure JacobianReuseTapeConfig where
  indexManager : IndexManagerProps
  staticAssertReuse : indexManager.IsLinear = false

/-- Concrete two-statement recording of the spec scenario: identifiers
x = 1, y = 2, t1 = 3, z = 4; statement 0 records `t1 = x * y` with
Jacobian entries (y = 3, x-id) and (x = 2, y-id); statement 1 records
`z = t1 + x` with Jacobian entries (1, t1-id) and (1, x-id). -/
def exampleTape : Tape :=
  { lhsIdentifiers := [3, 4],
    numberOfJacobians := [2, 2],
    rhsJacobians := [3, 2, 1, 1],
    rhsIdentifiers := [1, 2, 3, 1],
    llfTokens := [],
    llfFixedData := [],
    llfDynData := [] }

/-- A trivial callback table for examples without external functions. -/
def exampleEnv : LLFEnv :=
  fun _ => ⟨0, fun _ => 0, fun _ _ a => a, fun _ _ a => a⟩

/-- The initial adjoint vector of the spec scenario: zero except
`adjoint(z) = 1`. -/
def exampleSeed : AdjVec := fun i => if i = 4 then 1 else 0

/-- Effect of one reverse evaluation step on the adjoint vector,
expressed at the position of the statement it processes (the position
before the statement, in forward orientation). -/
def revStmtAt (t : Tape) (env : LLFEnv) (p : Position) (adj : AdjVec) : AdjVec :=
  let argsSize := t.numberOfJacobians.getD p.stmt 0
  if argsSize = statementLowLevelFunctionTag then
    let tok := t.llfTokens.getD p.token 0
    let fs := (env tok).fixedSize
    let fixedBytes := sliceL t.llfFixedData p.fixedB fs
    let ds := (env tok).dynSize fixedBytes
    (env tok).revApply fixedBytes (sliceL t.llfDynData p.dynB ds) adj
  else
    let lhs := t.lhsIdentifiers.getD p.stmt 0
    incrementAdjoints (updateAdj adj lhs 0) (adj lhs) (jacPairs t p.jac argsSize)

/-- Effect of one forward evaluation step on the tangent vector,
expressed at the position of the statement it processes. -/
def fwdStmtAt (t : Tape) (env : LLFEnv) (p : Position) (adj : AdjVec) : AdjVec :=
  let argsSize := t.numberOfJacobians.getD p.stmt 0
  if argsSize = statementLowLevelFunctionTag then
    let tok := t.llfTokens.getD p.token 0
    let fs := (env tok).fixedSize
    let fixedBytes := sliceL t.llfFixedData p.fixedB fs
    let ds := (env tok).dynSize fixedBytes
    (env tok).fwdApply fixedBytes (sliceL t.llfDynData p.dynB ds) adj
  else
    let lhs := t.lhsIdentifiers.getD p.stmt 0
    updateAdj adj lhs (incrementTangents adj (jacPairs t p.jac argsSize))

/-- Reverse processing of the statement range `[i, i + c)` in
decreasing recording order: statement `i + c - 1` first, statement `i`
last. -/
def revRange (t : Tape) (env : LLFEnv) (i : Nat) : Nat → AdjVec → AdjVec
  | 0, adj => adj
  | c + 1, adj => revRange t env i c (revStmtAt t env (posAt t env (i + c)) adj)

/-- Forward processing of the statement range `[i, i + c)` in
increasing recording order: statement `i` first. -/
def fwdRange (t : Tape) (env : LLFEnv) : Nat → Nat → AdjVec → AdjVec
  | _, 0, adj => adj
  | i, c + 1, adj => fwdRange t env (i + 1) c (fwdStmtAt t env (posAt t env i) adj)

/-- The per-statement reverse kernel the specification describes for a
normal (non-sentinel) statement `s`: first read the target
identifier's current adjoint, then zero that adjoint slot, then add
`partial_i * targetAdjoint` to the adjoint slot of each argument
identifier. -/
def reverseStmtKernel (t : Tape) (env : LLFEnv) (s : Nat) (adj : AdjVec) : AdjVec :=
  let targetId := t.lhsIdentifiers.getD s 0
  let targetAdjoint := adj targetId
  let zeroed := updateAdj adj targetId 0
  incrementAdjoints zeroed targetAdjoint
    (jacPairs t (posAt t env s).jac (t.numberOfJacobians.getD s 0))

/-- The per-statement forward kernel the specification describes for a
normal statement `s`: compute the target's tangent as the sum over
arguments of `partial_i * tangent[argId_i]` (from the tangent vector
before the statement) and overwrite the target identifier's tangent
slot with that sum. -/
def forwardStmtKernel (t : Tape) (env : LLFEnv) (s : Nat) (adj : AdjVec) : AdjVec :=
  let targetId := t.lhsIdentifiers.getD s 0
  let targetTangent := incrementTangents adj
    (jacPairs t (posAt t env s).jac (t.numberOfJacobians.getD s 0))
  updateAdj adj targetId targetTangent

/-- Reverse processing of the range `[i, i + c)` by the specification's
per-statement kernel, in decreasing order. -/
def revNormalRange (t : Tape) (env : LLFEnv) (i : Nat) : Nat → AdjVec → AdjVec
  | 0, adj => adj
  | c + 1, adj => revNormalRange t env i c (reverseStmtKernel t env (i + c) adj)

/-- Forward processing of the range `[i, i + c)` by the specification's
per-statement kernel, in increasing order. -/
def fwdNormalRange (t : Tape) (env : LLFEnv) : Nat → Nat → AdjVec → AdjVec
  | _, 0, adj => adj
  | i, c + 1, adj => fwdNormalRange t env (i + 1) c (forwardStmtKernel t env i adj)

theorem posStep_stmt (t : Tape) (env : LLFEnv) (p : Position) :
    (posStep t env p).stmt = p.stmt + 1 := by
  by_cases h : t.numberOfJacobians[p.stmt]?.getD 0 = statementLowLevelFunctionTag <;>
    simp [posStep, List.getD, h]

theorem posAt_stmt (t : Tape) (env : LLFEnv) (k : Nat) :
    (posAt t env k).stmt = k := by
  induction k with
  | zero => rfl
  | succ k ih => simp [posAt, posStep_stmt, ih]

theorem fwdStep_eq (t : Tape) (env : LLFEnv) (p : Position) (adj : AdjVec) :
    fwdStep t env p adj = (posStep t env p, fwdStmtAt t env p adj) := by
  by_cases h : t.numberOfJacobians[p.stmt]?.getD 0 = statementLowLevelFunctionTag <;>
    simp [fwdStep, posStep, fwdStmtAt, List.getD, h]

theorem revStep_posStep (t : Tape) (env : LLFEnv) (p : Position) (adj : AdjVec) :
    revStep t env (posStep t env p) adj = (p, revStmtAt t env p adj) := by
  by_cases h : t.numberOfJacobians[p.stmt]?.getD 0 = statementLowLevelFunctionTag
  · rw [show posStep t env p =
        ⟨p.stmt + 1, p.jac, p.token + 1,
          p.fixedB + (env (t.llfTokens.getD p.token 0)).fixedSize,
          p.dynB + (env (t.llfTokens.getD p.token 0)).dynSize
            (sliceL t.llfFixedData p.fixedB (env (t.llfTokens.getD p.token 0)).fixedSize)⟩ by
      simp [posStep, List.getD, h]]
    simp [revStep, revStmtAt, List.getD, h, Nat.add_sub_cancel]
  · rw [show posStep t env p =
        ⟨p.stmt + 1, p.jac + t.numberOfJacobians.getD p.stmt 0, p.token, p.fixedB, p.dynB⟩ by
      simp [posStep, List.getD, h]]
    simp [revStep, revStmtAt, List.getD, h, Nat.add_sub_cancel]

theorem evalRevLoop_posAt (t : Tape) (env : LLFEnv) (j : Nat) :
    ∀ c f adj, c ≤ f →
      evalRevLoop t env j f (posAt t env (j + c)) adj
        = (posAt t env j, revRange t env j c adj) := by
  intro c
  induction c with
  | zero =>
    intro f adj _
    cases f with
    | zero => simp [evalRevLoop, revRange]
    | succ n => simp [evalRevLoop, posAt_stmt, revRange]
  | succ c ih =>
    intro f adj hcf
    cases f with
    | zero => omega
    | succ n =>
      have hstep : posAt t env (j + (c + 1)) = posStep t env (posAt t env (j + c)) := rfl
      have hlt : j < (posStep t env (posAt t env (j + c))).stmt := by
        rw [posStep_stmt, posAt_stmt]; omega
      rw [hstep]
      simp only [evalRevLoop, if_pos hlt, revStep_posStep]
      rw [ih n (revStmtAt t env (posAt t env (j + c)) adj) (by omega)]
      rfl

theorem evalRev_posAt (t : Tape) (env : LLFEnv) (j k : Nat) (hjk : j ≤ k) (adj : AdjVec) :
    evalRev t env (posAt t env j) (posAt t env k) adj
      = (posAt t env j, revRange t env j (k - j) adj) := by
  obtain ⟨c, rfl⟩ : ∃ c, k = j + c := ⟨k - j, by omega⟩
  rw [evalRev, posAt_stmt, posAt_stmt]
  rw [show j + c - j = c by omega]
  exact evalRevLoop_posAt t env j c (j + c) adj (by omega)

theorem evalFwdLoop_posAt (t : Tape) (env : LLFEnv) :
    ∀ c f i adj, c ≤ f →
      evalFwdLoop t env (i + c) f (posAt t env i) adj
        = (posAt t env (i + c), fwdRange t env i c adj) := by
  intro c
  induction c with
  | zero =>
    intro f i adj _
    cases f with
    | zero => simp [evalFwdLoop, fwdRange]
    | succ n => simp [evalFwdLoop, posAt_stmt, fwdRange]
  | succ c ih =>
    intro f i adj hcf
    cases f with
    | zero => omega
    | succ n =>
      have hlt : (posAt t env i).stmt < i + (c + 1) := by
        rw [posAt_stmt]; omega
      simp only [evalFwdLoop, if_pos hlt, fwdStep_eq]
      have hstep : posStep t env (posAt t env i) = posAt t env (i + 1) := rfl
      rw [hstep]
      have harith : i + (c + 1) = (i + 1) + c := by omega
      rw [harith, ih n (i + 1) (fwdStmtAt t env (posAt t env i) adj) (by omega)]
      have harith2 : i + 1 + c = i + (c + 1) := by omega
      rw [harith2]
      rfl

theorem evalFwd_posAt (t : Tape) (env : LLFEnv) (i k : Nat) (hik : i ≤ k) (adj : AdjVec) :
    evalFwd t env (posAt t env k) (posAt t env i) adj
      = (posAt t env k, fwdRange t env i (k - i) adj) := by
  obtain ⟨c, rfl⟩ : ∃ c, k = i + c := ⟨k - i, by omega⟩
  rw [evalFwd, posAt_stmt, posAt_stmt]
  rw [show i + c - i = c by omega]
  exact evalFwdLoop_posAt t env c c i adj (le_refl c)

theorem revRange_add (t : Tape) (env : LLFEnv) (i c1 : Nat) :
    ∀ c2 adj, revRange t env i c1 (revRange t env (i + c1) c2 adj)
      = revRange t env i (c1 + c2) adj := by
  intro c2
  induction c2 with
  | zero => intro adj; rfl
  | succ c2 ih =>
    intro adj
    have h1 : revRange t env (i + c1) (c2 + 1) adj
        = revRange t env (i + c1) c2 (revStmtAt t env (posAt t env (i + c1 + c2)) adj) := rfl
    rw [h1, ih]
    have h2 : i + c1 + c2 = i + (c1 + c2) := by omega
    have h3 : c1 + (c2 + 1) = (c1 + c2) + 1 := by omega
    rw [h2, h3]
    rfl

theorem fwdRange_add (t : Tape) (env : LLFEnv) :
    ∀ c1 i c2 adj, fwdRange t env (i + c1) c2 (fwdRange t env i c1 adj)
      = fwdRange t env i (c1 + c2) adj := by
  intro c1
  induction c1 with
  | zero =>
    intro i c2 adj
    rw [Nat.zero_add]
    rfl
  | succ c1 ih =>
    intro i c2 adj
    have h1 : fwdRange t env i (c1 + 1) adj
        = fwdRange t env (i + 1) c1 (fwdStmtAt t env (posAt t env i) adj) := rfl
    have h2 : i + (c1 + 1) = (i + 1) + c1 := by omega
    rw [h1, h2, ih (i + 1) c2 (fwdStmtAt t env (posAt t env i) adj)]
    have h3 : c1 + 1 + c2 = (c1 + c2) + 1 := by omega
    rw [h3]
    have h4 : fwdRange t env i ((c1 + c2) + 1) adj
        = fwdRange t env (i + 1) (c1 + c2) (fwdStmtAt t env (posAt t env i) adj) := rfl
    rw [h4]

theorem revStmtAt_posAt_normal (t : Tape) (env : LLFEnv) (s : Nat) (adj : AdjVec)
    (h : t.numberOfJacobians.getD s 0 ≠ statementLowLevelFunctionTag) :
    revStmtAt t env (posAt t env s) adj = reverseStmtKernel t env s adj := by
  simp only [List.getD_eq_getElem?_getD] at h
  simp [revStmtAt, reverseStmtKernel, posAt_stmt, List.getD, h]

theorem fwdStmtAt_posAt_normal (t : Tape) (env : LLFEnv) (s : Nat) (adj : AdjVec)
    (h : t.numberOfJacobians.getD s 0 ≠ statementLowLevelFunctionTag) :
    fwdStmtAt t env (posAt t env s) adj = forwardStmtKernel t env s adj := by
  simp only [List.getD_eq_getElem?_getD] at h
  simp [fwdStmtAt, forwardStmtKernel, posAt_stmt, List.getD, h]

theorem revRange_normal (t : Tape) (env : LLFEnv) (i : Nat) :
    ∀ c adj,
      (∀ s, i ≤ s → s < i + c →
        t.numberOfJacobians.getD s 0 ≠ statementLowLevelFunctionTag) →
      revRange t env i c adj = revNormalRange t env i c adj := by
  intro c
  induction c with
  | zero => intro adj _; rfl
  | succ c ih =>
    intro adj h
    have h1 : revRange t env i (c + 1) adj
        = revRange t env i c (revStmtAt t env (posAt t env (i + c)) adj) := rfl
    rw [h1, revStmtAt_posAt_normal t env (i + c) adj (h (i + c) (by omega) (by omega))]
    rw [ih (reverseStmtKernel t env (i + c) adj) (fun s h1 h2 => h s h1 (by omega))]
    rfl

theorem fwdRange_normal (t : Tape) (env : LLFEnv) :
    ∀ c i adj,
      (∀ s, i ≤ s → s < i + c →
        t.numberOfJacobians.getD s 0 ≠ statementLowLevelFunctionTag) →
      fwdRange t env i c adj = fwdNormalRange t env i c adj := by
  intro c
  induction c with
  | zero => intro i adj _; rfl
  | succ c ih =>
    intro i adj h
    have h1 : fwdRange t env i (c + 1) adj
        = fwdRange t env (i + 1) c (fwdStmtAt t env (posAt t env i) adj) := rfl
    rw [h1, fwdStmtAt_posAt_normal t env i adj (h i (by omega) (by omega))]
    rw [ih (i + 1) (forwardStmtKernel t env i adj) (fun s h1 h2 => h s (by omega) (by omega))]
    rfl

/-- C1: For every recorded range and every normal (non-sentinel)
statement in it, reverse replay (`evaluateReverse`) processes
statements in decreasing recording order and, per statement, first
reads the target identifier's current adjoint, then zeroes that
adjoint slot, and then adds `partial_i * targetAdjoint` to the adjoint
slot of each argument identifier, in that order.  Formally: over any
recorded range the reverse evaluation loop equals the decreasing-order
per-statement fold `revRange`; the effect of each normal statement in
it is exactly `reverseStmtKernel`, which performs the three steps in
this order; hence over ranges of normal statements the loop is the
decreasing fold of the kernel. -/
theorem claim_C1 (t : Tape) (env : LLFEnv) (i k s : Nat) (adj adj2 : AdjVec)
    (hik : i ≤ k)
    (hs : t.numberOfJacobians.getD s 0 ≠ statementLowLevelFunctionTag) :
    (evalRev t env (posAt t env i) (posAt t env k) adj).2
      = revRange t env i (k - i) adj
    ∧ revStmtAt t env (posAt t env s) adj2 = reverseStmtKernel t env s adj2
    ∧ ((∀ u, i ≤ u → u < k →
          t.numberOfJacobians.getD u 0 ≠ statementLowLevelFunctionTag) →
        (evalRev t env (posAt t env i) (posAt t env k) adj).2
          = revNormalRange t env i (k - i) adj) := by
  refine ⟨?_, revStmtAt_posAt_normal t env s adj2 hs, ?_⟩
  · rw [evalRev_posAt t env i k hik adj]
  · intro hnormal
    rw [evalRev_posAt t env i k hik adj]
    exact revRange_normal t env i (k - i) adj (fun u h1 h2 => hnormal u h1 (by omega))

/-- Witness for C1 on the concrete two-statement example recording. -/
theorem claim_C1_witness :
    (evalRev exampleTape exampleEnv (posAt exampleTape exampleEnv 0)
        (posAt exampleTape exampleEnv 2) exampleSeed).2
      = revRange exampleTape exampleEnv 0 (2 - 0) exampleSeed
    ∧ revStmtAt exampleTape exampleEnv (posAt exampleTape exampleEnv 0) exampleSeed
        = reverseStmtKernel exampleTape exampleEnv 0 exampleSeed
    ∧ ((∀ u, 0 ≤ u → u < 2 →
          exampleTape.numberOfJacobians.getD u 0 ≠ statementLowLevelFunctionTag) →
        (evalRev exampleTape exampleEnv (posAt exampleTape exampleEnv 0)
            (posAt exampleTape exampleEnv 2) exampleSeed).2
          = revNormalRange exampleTape exampleEnv 0 (2 - 0) exampleSeed) :=
  claim_C1 exampleTape exampleEnv 0 2 0 exampleSeed exampleSeed (by omega) (by decide)

/-- C2: For every recorded range and every normal (non-sentinel)
statement in it, forward replay (`evaluateForward`) processes
statements in increasing recording order and, per statement, computes
the target's tangent as the sum over arguments of
`partial_i * tangent[argId_i]` and overwrites (does not accumulate
into) the target identifier's tangent slot with that sum.  Formally:
over any recorded range the forward evaluation loop equals the
increasing-order per-statement fold `fwdRange`; the effect of each
normal statement in it is exactly `forwardStmtKernel`, which overwrites
the target slot with the weighted sum of the argument tangents taken
before the statement; hence over ranges of normal statements the loop
is the increasing fold of the kernel. -/
theorem claim_C2 (t : Tape) (env : LLFEnv) (i k s : Nat) (tan tan2 : AdjVec)
    (hik : i ≤ k)
    (hs : t.numberOfJacobians.getD s 0 ≠ statementLowLevelFunctionTag) :
    (evalFwd t env (posAt t env k) (posAt t env i) tan).2
      = fwdRange t env i (k - i) tan
    ∧ fwdStmtAt t env (posAt t env s) tan2 = forwardStmtKernel t env s tan2
    ∧ ((∀ u, i ≤ u → u < k →
          t.numberOfJacobians.getD u 0 ≠ statementLowLevelFunctionTag) →
        (evalFwd t env (posAt t env k) (posAt t env i) tan).2
          = fwdNormalRange t env i (k - i) tan) := by
  refine ⟨?_, fwdStmtAt_posAt_normal t env s tan2 hs, ?_⟩
  · rw [evalFwd_posAt t env i k hik tan]
  · intro hnormal
    rw [evalFwd_posAt t env i k hik tan]
    exact fwdRange_normal t env (k - i) i tan (fun u h1 h2 => hnormal u h1 (by omega))

/-- Witness for C2 on the concrete two-statement example recording. -/
theorem claim_C2_witness :
    (evalFwd exampleTape exampleEnv (posAt exampleTape exampleEnv 2)
        (posAt exampleTape exampleEnv 0) exampleSeed).2
      = fwdRange exampleTape exampleEnv 0 (2 - 0) exampleSeed
    ∧ fwdStmtAt exampleTape exampleEnv (posAt exampleTape exampleEnv 0) exampleSeed
        = forwardStmtKernel exampleTape exampleEnv 0 exampleSeed
    ∧ ((∀ u, 0 ≤ u → u < 2 →
          exampleTape.numberOfJacobians.getD u 0 ≠ statementLowLevelFunctionTag) →
        (evalFwd exampleTape exampleEnv (posAt exampleTape exampleEnv 2)
            (posAt exampleTape exampleEnv 0) exampleSeed).2
          = fwdNormalRange exampleTape exampleEnv 0 (2 - 0) exampleSeed) :=
  claim_C2 exampleTape exampleEnv 0 2 0 exampleSeed exampleSeed (by omega) (by decide)

/-- C3: For the concrete two-statement recording `t1 = x * y`
(Jacobian entries (y, x-id), (x, y-id)) followed by `z = t1 + x`
(Jacobian entries (1, t1-id), (1, x-id)), with primal values x = 2 and
y = 3, starting from an adjoint vector that is zero except
adjoint(z) = 1, running `evaluateReverse` over the whole recorded range
yields adjoint(x) = 4, adjoint(y) = 2 and adjoint(t1) = 0 (identifiers
x = 1, y = 2, t1 = 3, z = 4). -/
theorem claim_C3 :
    (evalRev exampleTape exampleEnv zeroPosition (getPosition exampleTape)
        exampleSeed).2 1 = 4 ∧
    (evalRev exampleTape exampleEnv zeroPosition (getPosition exampleTape)
        exampleSeed).2 2 = 2 ∧
    (evalRev exampleTape exampleEnv zeroPosition (getPosition exampleTape)
        exampleSeed).2 3 = 0 := by
  decide

/-- C4: For every three positions `p1 ≤ p2 ≤ p3` taken from one
recording (positions after `i ≤ j ≤ k` recorded statements) and every
initial adjoint/tangent vector, evaluating the range (p1,p2) and then
the range (p2,p3) produces exactly the same final adjoint/tangent
vector as evaluating the single range (p1,p3), in both the forward and
the reverse direction. -/
theorem claim_C4 (t : Tape) (env : LLFEnv) (i j k : Nat) (hij : i ≤ j) (hjk : j ≤ k)
    (adj tan : AdjVec) :
    (evalRev t env (posAt t env i) (posAt t env j)
        (evalRev t env (posAt t env j) (posAt t env k) adj).2).2
      = (evalRev t env (posAt t env i) (posAt t env k) adj).2
    ∧ (evalFwd t env (posAt t env k) (posAt t env j)
        (evalFwd t env (posAt t env j) (posAt t env i) tan).2).2
      = (evalFwd t env (posAt t env k) (posAt t env i) tan).2 := by
  constructor
  · rw [evalRev_posAt t env j k hjk adj]
    rw [evalRev_posAt t env i j hij (revRange t env j (k - j) adj)]
    rw [evalRev_posAt t env i k (by omega) adj]
    have h1 := revRange_add t env i (j - i) (k - j) adj
    rw [show i + (j - i) = j by omega] at h1
    rw [show (j - i) + (k - j) = k - i by omega] at h1
    exact h1
  · rw [evalFwd_posAt t env i j hij tan]
    rw [evalFwd_posAt t env j k hjk (fwdRange t env i (j - i) tan)]
    rw [evalFwd_posAt t env i k (by omega) tan]
    have h1 := fwdRange_add t env (j - i) i (k - j) tan
    rw [show i + (j - i) = j by omega] at h1
    rw [show (j - i) + (k - j) = k - i by omega] at h1
    exact h1

/-- Witness for C4 on the concrete two-statement example recording,
split at the middle position. -/
theorem claim_C4_witness :
    (evalRev exampleTape exampleEnv (posAt exampleTape exampleEnv 0)
        (posAt exampleTape exampleEnv 1)
        (evalRev exampleTape exampleEnv (posAt exampleTape exampleEnv 1)
          (posAt exampleTape exampleEnv 2) exampleSeed).2).2
      = (evalRev exampleTape exampleEnv (posAt exampleTape exampleEnv 0)
          (posAt exampleTape exampleEnv 2) exampleSeed).2
    ∧ (evalFwd exampleTape exampleEnv (posAt exampleTape exampleEnv 2)
        (posAt exampleTape exampleEnv 1)
        (evalFwd exampleTape exampleEnv (posAt exampleTape exampleEnv 1)
          (posAt exampleTape exampleEnv 0) exampleSeed).2).2
      = (evalFwd exampleTape exampleEnv (posAt exampleTape exampleEnv 2)
          (posAt exampleTape exampleEnv 0) exampleSeed).2 :=
  claim_C4 exampleTape exampleEnv 0 1 2 (by omega) (by omega) exampleSeed exampleSeed

theorem sliceL_zero (L : List α) (a : Nat) : sliceL L a 0 = [] := rfl

theorem sliceL_length (L : List α) (a n : Nat) (h : a + n ≤ L.length) :
    (sliceL L a n).length = n := by
  unfold sliceL
  rw [List.length_take, List.length_drop]
  omega

theorem sliceL_add (L : List α) (a n m : Nat) :
    sliceL L a (n + m) = sliceL L a n ++ sliceL L (a + n) m := by
  unfold sliceL
  rw [List.take_add]
  congr 1
  rw [List.drop_drop]

theorem sliceL_getD (L : List α) (a n k : Nat) (d : α) (hk : k < n) (h : a + k < L.length) :
    (sliceL L a n).getD k d = L.getD (a + k) d := by
  unfold sliceL
  rw [List.getD_eq_getElem?_getD, List.getD_eq_getElem?_getD]
  rw [List.getElem?_take, if_pos hk, List.getElem?_drop]

theorem sliceL_one (L : List α) (a : Nat) (d : α) (h : a < L.length) :
    sliceL L a 1 = [L.getD a d] := by
  unfold sliceL
  rw [show (1 : Nat) = 0 + 1 from rfl, List.take_succ]
  simp [List.getElem?_drop, List.getD_eq_getElem?_getD, List.getElem?_eq_getElem h]

theorem sliceL_getD_range (L : List α) (d : α) :
    ∀ n a, a + n ≤ L.length →
      sliceL L a n = (List.range n).map (fun k => L.getD (a + k) d) := by
  intro n
  induction n with
  | zero => intro a _; rfl
  | succ n ih =>
    intro a h
    rw [sliceL_add L a n 1, ih a (by omega), sliceL_one L (a + n) d (by omega)]
    rw [List.range_succ, List.map_append]
    rfl

theorem sliceL_sliceL (L : List α) (a m b n : Nat) (h : b + n ≤ m) :
    sliceL (sliceL L a m) b n = sliceL L (a + b) n := by
  unfold sliceL
  rw [List.drop_take, List.drop_drop]
  rw [List.take_take]
  rw [show min n (m - b) = n by omega]

theorem sliceL_full (L : List α) : sliceL L 0 L.length = L := by
  unfold sliceL
  rw [List.drop_zero, List.take_length]

/-- Fieldwise concatenation of two tapes' recorded streams. -/
def concatT (a b : Tape) : Tape :=
  ⟨a.lhsIdentifiers ++ b.lhsIdentifiers,
    a.numberOfJacobians ++ b.numberOfJacobians,
    a.rhsJacobians ++ b.rhsJacobians,
    a.rhsIdentifiers ++ b.rhsIdentifiers,
    a.llfTokens ++ b.llfTokens,
    a.llfFixedData ++ b.llfFixedData,
    a.llfDynData ++ b.llfDynData⟩

theorem concatT_assoc (a b c : Tape) :
    concatT (concatT a b) c = concatT a (concatT b c) := by
  simp [concatT, List.append_assoc]

theorem concatT_empty_left (t : Tape) : concatT emptyTape t = t := by
  simp [concatT, emptyTape]

theorem concatT_empty_right (t : Tape) : concatT t emptyTape = t := by
  simp [concatT, emptyTape]

/-- Componentwise order on positions. -/
def posLe (p q : Position) : Prop :=
  p.stmt ≤ q.stmt ∧ p.jac ≤ q.jac ∧ p.token ≤ q.token ∧ p.fixedB ≤ q.fixedB ∧ p.dynB ≤ q.dynB

theorem posLe_step (t : Tape) (env : LLFEnv) (p : Position) :
    posLe p (posStep t env p) := by
  by_cases h : t.numberOfJacobians[p.stmt]?.getD 0 = statementLowLevelFunctionTag <;>
    simp [posStep, posLe, List.getD, h] <;> omega

theorem posAt_mono (t : Tape) (env : LLFEnv) (i : Nat) :
    ∀ j, i ≤ j → posLe (posAt t env i) (posAt t env j) := by
  intro j
  induction j with
  | zero =>
    intro h
    rw [Nat.le_zero.mp h]
    exact ⟨le_refl _, le_refl _, le_refl _, le_refl _, le_refl _⟩
  | succ j ih =>
    intro h
    rcases Nat.lt_or_ge i (j + 1) with h1 | h1
    · have h2 := ih (by omega)
      have h3 := posLe_step t env (posAt t env j)
      exact ⟨le_trans h2.1 h3.1, le_trans h2.2.1 h3.2.1, le_trans h2.2.2.1 h3.2.2.1,
        le_trans h2.2.2.2.1 h3.2.2.2.1, le_trans h2.2.2.2.2 h3.2.2.2.2⟩
    · rw [show i = j + 1 by omega]
      exact ⟨le_refl _, le_refl _, le_refl _, le_refl _, le_refl _⟩

/-- The recorded content strictly between the positions after `i` and
after `j` statements: fieldwise slices of the streams between the two
position snapshots. -/
def sliceT (t : Tape) (env : LLFEnv) (i j : Nat) : Tape :=
  ⟨sliceL t.lhsIdentifiers (posAt t env i).stmt ((posAt t env j).stmt - (posAt t env i).stmt),
    sliceL t.numberOfJacobians (posAt t env i).stmt ((posAt t env j).stmt - (posAt t env i).stmt),
    sliceL t.rhsJacobians (posAt t env i).jac ((posAt t env j).jac - (posAt t env i).jac),
    sliceL t.rhsIdentifiers (posAt t env i).jac ((posAt t env j).jac - (posAt t env i).jac),
    sliceL t.llfTokens (posAt t env i).token ((posAt t env j).token - (posAt t env i).token),
    sliceL t.llfFixedData (posAt t env i).fixedB ((posAt t env j).fixedB - (posAt t env i).fixedB),
    sliceL t.llfDynData (posAt t env i).dynB ((posAt t env j).dynB - (posAt t env i).dynB)⟩

theorem sliceT_self (t : Tape) (env : LLFEnv) (i : Nat) :
    sliceT t env i i = emptyTape := by
  simp [sliceT, emptyTape, Nat.sub_self, sliceL_zero]

theorem sliceT_split (t : Tape) (env : LLFEnv) (i j k : Nat) (hij : i ≤ j) (hjk : j ≤ k) :
    sliceT t env i k = concatT (sliceT t env i j) (sliceT t env j k) := by
  have hab := posAt_mono t env i j hij
  have hbc := posAt_mono t env j k hjk
  obtain ⟨h1, h2, h3, h4, h5⟩ := hab
  obtain ⟨g1, g2, g3, g4, g5⟩ := hbc
  simp only [sliceT, concatT, Tape.mk.injEq]
  refine ⟨?_, ?_, ?_, ?_, ?_, ?_, ?_⟩ <;>
    (first
      | (rw [show (posAt t env k).stmt - (posAt t env i).stmt =
            ((posAt t env j).stmt - (posAt t env i).stmt) +
            ((posAt t env k).stmt - (posAt t env j).stmt) by omega, sliceL_add]
         congr 2
         omega)
      | (rw [show (posAt t env k).jac - (posAt t env i).jac =
            ((posAt t env j).jac - (posAt t env i).jac) +
            ((posAt t env k).jac - (posAt t env j).jac) by omega, sliceL_add]
         congr 2
         omega)
      | (rw [show (posAt t env k).token - (posAt t env i).token =
            ((posAt t env j).token - (posAt t env i).token) +
            ((posAt t env k).token - (posAt t env j).token) by omega, sliceL_add]
         congr 2
         omega)
      | (rw [show (posAt t env k).fixedB - (posAt t env i).fixedB =
            ((posAt t env j).fixedB - (posAt t env i).fixedB) +
            ((posAt t env k).fixedB - (posAt t env j).fixedB) by omega, sliceL_add]
         congr 2
         omega)
      | (rw [show (posAt t env k).dynB - (posAt t env i).dynB =
            ((posAt t env j).dynB - (posAt t env i).dynB) +
            ((posAt t env k).dynB - (posAt t env j).dynB) by omega, sliceL_add]
         congr 2
         omega))

theorem posAt_succ_normal (t : Tape) (env : LLFEnv) (i : Nat)
    (h : t.numberOfJacobians.getD i 0 ≠ statementLowLevelFunctionTag) :
    posAt t env (i + 1)
      = ⟨i + 1, (posAt t env i).jac + t.numberOfJacobians.getD i 0,
          (posAt t env i).token, (posAt t env i).fixedB, (posAt t env i).dynB⟩ := by
  simp only [List.getD_eq_getElem?_getD] at h
  show posStep t env (posAt t env i) = _
  simp [posStep, posAt_stmt, List.getD, h]

theorem posAt_succ_llf (t : Tape) (env : LLFEnv) (i : Nat)
    (h : t.numberOfJacobians.getD i 0 = statementLowLevelFunctionTag) :
    posAt t env (i + 1)
      = ⟨i + 1, (posAt t env i).jac, (posAt t env i).token + 1,
          (posAt t env i).fixedB
            + (env (t.llfTokens.getD (posAt t env i).token 0)).fixedSize,
          (posAt t env i).dynB
            + (env (t.llfTokens.getD (posAt t env i).token 0)).dynSize
                (sliceL t.llfFixedData (posAt t env i).fixedB
                  (env (t.llfTokens.getD (posAt t env i).token 0)).fixedSize)⟩ := by
  simp only [List.getD_eq_getElem?_getD] at h
  show posStep t env (posAt t env i) = _
  simp [posStep, posAt_stmt, List.getD, h]

theorem foldl_pushJacobianData (prs : List (Int × Nat)) :
    ∀ d : Tape,
      prs.foldl (fun d pr => pushJacobianData d pr.1 pr.2) d
        = { d with
            rhsJacobians := d.rhsJacobians ++ prs.map Prod.fst,
            rhsIdentifiers := d.rhsIdentifiers ++ prs.map Prod.snd } := by
  induction prs with
  | nil => intro d; simp
  | cons pr prs ih =>
    intro d
    rw [List.foldl_cons, ih]
    simp [pushJacobianData]

theorem push_normal_concat (dst : Tape) (lhsv args : Nat) (prs : List (Int × Nat)) :
    prs.foldl (fun d pr => pushJacobianData d pr.1 pr.2) (pushStmtData dst lhsv args)
      = concatT dst ⟨[lhsv], [args], prs.map Prod.fst, prs.map Prod.snd, [], [], []⟩ := by
  rw [foldl_pushJacobianData]
  simp [pushStmtData, concatT]

theorem push_llf_concat (dst : Tape) (tok : Nat) (fb db : List Nat) :
    pushLowLevelFunction dst tok fb db
      = concatT dst ⟨[0], [statementLowLevelFunctionTag], [], [], [tok], fb, db⟩ := by
  simp [pushLowLevelFunction, concatT]

theorem jacPairs_map_fst (t : Tape) (a n : Nat) :
    (jacPairs t a n).map Prod.fst
      = (List.range n).map (fun k => t.rhsJacobians.getD (a + k) 0) := by
  simp [jacPairs, List.map_map, Function.comp]

theorem jacPairs_map_snd (t : Tape) (a n : Nat) :
    (jacPairs t a n).map Prod.snd
      = (List.range n).map (fun k => t.rhsIdentifiers.getD (a + k) 0) := by
  simp [jacPairs, List.map_map, Function.comp]

theorem sliceT_succ_normal (t : Tape) (env : LLFEnv) (hwf : Wf t env) (i : Nat)
    (hi : i < stmtCount t)
    (h : t.numberOfJacobians.getD i 0 ≠ statementLowLevelFunctionTag) :
    sliceT t env i (i + 1)
      = ⟨[t.lhsIdentifiers.getD i 0], [t.numberOfJacobians.getD i 0],
          (jacPairs t (posAt t env i).jac (t.numberOfJacobians.getD i 0)).map Prod.fst,
          (jacPairs t (posAt t env i).jac (t.numberOfJacobians.getD i 0)).map Prod.snd,
          [], [], []⟩ := by
  obtain ⟨hlen1, hlen2, hpos, _⟩ := hwf
  have hjlen : (posAt t env (stmtCount t)).jac = t.rhsJacobians.length := by
    rw [hpos]; rfl
  have hmono := (posAt_mono t env (i + 1) (stmtCount t) (by omega)).2.1
  have hsn := posAt_succ_normal t env i h
  have hjac : (posAt t env (i + 1)).jac
      = (posAt t env i).jac + t.numberOfJacobians.getD i 0 := by rw [hsn]
  have hjbound : (posAt t env i).jac + t.numberOfJacobians.getD i 0
      ≤ t.rhsJacobians.length := by omega
  simp only [sliceT, Tape.mk.injEq]
  refine ⟨?_, ?_, ?_, ?_, ?_, ?_, ?_⟩
  · rw [posAt_stmt, posAt_stmt, show i + 1 - i = 1 by omega]
    exact sliceL_one t.lhsIdentifiers i 0 hi
  · rw [posAt_stmt, posAt_stmt, show i + 1 - i = 1 by omega]
    exact sliceL_one t.numberOfJacobians i 0 (by rw [hlen1]; exact hi)
  · rw [hjac, Nat.add_sub_cancel_left, jacPairs_map_fst]
    exact sliceL_getD_range t.rhsJacobians 0 _ _ hjbound
  · rw [hjac, Nat.add_sub_cancel_left, jacPairs_map_snd]
    exact sliceL_getD_range t.rhsIdentifiers 0 _ _ (by omega)
  · rw [hsn]
    simp [sliceL_zero]
  · rw [hsn]
    simp [sliceL_zero]
  · rw [hsn]
    simp [sliceL_zero]

theorem sliceT_succ_llf (t : Tape) (env : LLFEnv) (hwf : Wf t env) (i : Nat)
    (hi : i < stmtCount t)
    (h : t.numberOfJacobians.getD i 0 = statementLowLevelFunctionTag) :
    sliceT t env i (i + 1)
      = ⟨[0], [statementLowLevelFunctionTag], [], [],
          [t.llfTokens.getD (posAt t env i).token 0],
          sliceL t.llfFixedData (posAt t env i).fixedB
            (env (t.llfTokens.getD (posAt t env i).token 0)).fixedSize,
          sliceL t.llfDynData (posAt t env i).dynB
            ((env (t.llfTokens.getD (posAt t env i).token 0)).dynSize
              (sliceL t.llfFixedData (posAt t env i).fixedB
                (env (t.llfTokens.getD (posAt t env i).token 0)).fixedSize))⟩ := by
  obtain ⟨hlen1, hlen2, hpos, hllf⟩ := hwf
  have htlen : (posAt t env (stmtCount t)).token = t.llfTokens.length := by
    rw [hpos]; rfl
  have hmono := (posAt_mono t env (i + 1) (stmtCount t) (by omega)).2.2.1
  have hsl := posAt_succ_llf t env i h
  have htok : (posAt t env (i + 1)).token = (posAt t env i).token + 1 := by rw [hsl]
  have htbound : (posAt t env i).token < t.llfTokens.length := by omega
  simp only [sliceT, Tape.mk.injEq]
  refine ⟨?_, ?_, ?_, ?_, ?_, ?_, ?_⟩
  · rw [posAt_stmt, posAt_stmt, show i + 1 - i = 1 by omega]
    rw [sliceL_one t.lhsIdentifiers i 0 hi, hllf i hi h]
  · rw [posAt_stmt, posAt_stmt, show i + 1 - i = 1 by omega]
    rw [sliceL_one t.numberOfJacobians i 0 (by rw [hlen1]; exact hi), h]
  · rw [hsl]
    simp [sliceL_zero]
  · rw [hsl]
    simp [sliceL_zero]
  · rw [htok, Nat.add_sub_cancel_left]
    exact sliceL_one t.llfTokens (posAt t env i).token 0 htbound
  · rw [hsl]
    simp [Nat.add_sub_cancel_left]
  · rw [hsl]
    simp [Nat.add_sub_cancel_left]

theorem internalAppendLoop_succ_llf (src : Tape) (env : LLFEnv) (endStmt n : Nat)
    (cur : Position) (dst : Tape) (hlt : cur.stmt < endStmt)
    (h : src.numberOfJacobians.getD cur.stmt 0 = statementLowLevelFunctionTag) :
    internalAppendLoop src env endStmt (n + 1) cur dst
      = internalAppendLoop src env endStmt n
          ⟨cur.stmt + 1, cur.jac, cur.token + 1,
            cur.fixedB + (env (src.llfTokens.getD cur.token 0)).fixedSize,
            cur.dynB + (env (src.llfTokens.getD cur.token 0)).dynSize
              (sliceL src.llfFixedData cur.fixedB
                (env (src.llfTokens.getD cur.token 0)).fixedSize)⟩
          (pushLowLevelFunction dst (src.llfTokens.getD cur.token 0)
            (sliceL src.llfFixedData cur.fixedB
              (env (src.llfTokens.getD cur.token 0)).fixedSize)
            (sliceL src.llfDynData cur.dynB
              ((env (src.llfTokens.getD cur.token 0)).dynSize
                (sliceL src.llfFixedData cur.fixedB
                  (env (src.llfTokens.getD cur.token 0)).fixedSize)))) := by
  simp only [List.getD_eq_getElem?_getD] at h
  simp [internalAppendLoop, hlt, List.getD, h]

theorem internalAppendLoop_succ_normal (src : Tape) (env : LLFEnv) (endStmt n : Nat)
    (cur : Position) (dst : Tape) (hlt : cur.stmt < endStmt)
    (h : src.numberOfJacobians.getD cur.stmt 0 ≠ statementLowLevelFunctionTag) :
    internalAppendLoop src env endStmt (n + 1) cur dst
      = internalAppendLoop src env endStmt n
          ⟨cur.stmt + 1, cur.jac + src.numberOfJacobians.getD cur.stmt 0,
            cur.token, cur.fixedB, cur.dynB⟩
          ((jacPairs src cur.jac (src.numberOfJacobians.getD cur.stmt 0)).foldl
            (fun d pr => pushJacobianData d pr.1 pr.2)
            (pushStmtData dst (src.lhsIdentifiers.getD cur.stmt 0)
              (src.numberOfJacobians.getD cur.stmt 0))) := by
  simp only [List.getD_eq_getElem?_getD] at h
  simp [internalAppendLoop, hlt, List.getD, h]

theorem internalAppendLoop_slices (src : Tape) (env : LLFEnv) (hwf : Wf src env) :
    ∀ c i dst, i + c ≤ stmtCount src →
      internalAppendLoop src env (i + c) c (posAt src env i) dst
        = concatT dst (sliceT src env i (i + c)) := by
  intro c
  induction c with
  | zero =>
    intro i dst _
    simp only [Nat.add_zero]
    rw [sliceT_self, concatT_empty_right]
    rfl
  | succ c ih =>
    intro i dst hbound
    have hlt : (posAt src env i).stmt < i + (c + 1) := by rw [posAt_stmt]; omega
    have hi : i < stmtCount src := by omega
    by_cases h : src.numberOfJacobians.getD i 0 = statementLowLevelFunctionTag
    · have hcur : src.numberOfJacobians.getD (posAt src env i).stmt 0
          = statementLowLevelFunctionTag := by rw [posAt_stmt]; exact h
      rw [internalAppendLoop_succ_llf src env (i + (c + 1)) c (posAt src env i) dst hlt hcur]
      rw [posAt_stmt src env i]
      rw [← posAt_succ_llf src env i h]
      rw [push_llf_concat]
      rw [show i + (c + 1) = (i + 1) + c by omega]
      rw [ih (i + 1) _ (by omega)]
      rw [concatT_assoc]
      congr 1
      rw [sliceT_split src env i (i + 1) (i + 1 + c) (by omega) (by omega)]
      rw [sliceT_succ_llf src env hwf i hi h]
    · have hcur : src.numberOfJacobians.getD (posAt src env i).stmt 0
          ≠ statementLowLevelFunctionTag := by rw [posAt_stmt]; exact h
      rw [internalAppendLoop_succ_normal src env (i + (c + 1)) c (posAt src env i) dst hlt hcur]
      rw [posAt_stmt src env i]
      rw [← posAt_succ_normal src env i h]
      rw [push_normal_concat]
      rw [show i + (c + 1) = (i + 1) + c by omega]
      rw [ih (i + 1) _ (by omega)]
      rw [concatT_assoc]
      congr 1
      rw [sliceT_split src env i (i + 1) (i + 1 + c) (by omega) (by omega)]
      rw [sliceT_succ_normal src env hwf i hi h]

theorem append_slices (dst src : Tape) (env : LLFEnv) (hwf : Wf src env) (i j : Nat)
    (hij : i ≤ j) (hj : j ≤ stmtCount src) :
    append dst env src (posAt src env i) (posAt src env j)
      = concatT dst (sliceT src env i j) := by
  obtain ⟨c, rfl⟩ : ∃ c, j = i + c := ⟨j - i, by omega⟩
  rw [append, posAt_stmt, posAt_stmt, show i + c - i = c by omega]
  exact internalAppendLoop_slices src env hwf c i dst (by omega)

/-- Componentwise difference of positions. -/
def posSub (p q : Position) : Position :=
  ⟨p.stmt - q.stmt, p.jac - q.jac, p.token - q.token, p.fixedB - q.fixedB, p.dynB - q.dynB⟩

theorem sliceT_nums_getD (t : Tape) (env : LLFEnv) (hwf : Wf t env) (j c : Nat)
    (hjc : j + c < stmtCount t) :
    (sliceT t env j (stmtCount t)).numberOfJacobians.getD c 0
      = t.numberOfJacobians.getD (j + c) 0 := by
  have hlen : t.numberOfJacobians.length = stmtCount t := hwf.1
  simp only [sliceT]
  rw [posAt_stmt, posAt_stmt]
  exact sliceL_getD _ j _ c 0 (by omega) (by omega)

theorem sliceT_lhs_getD (t : Tape) (env : LLFEnv) (hwf : Wf t env) (j c : Nat)
    (hjc : j + c < stmtCount t) :
    (sliceT t env j (stmtCount t)).lhsIdentifiers.getD c 0
      = t.lhsIdentifiers.getD (j + c) 0 := by
  have hlen : t.lhsIdentifiers.length = stmtCount t := rfl
  simp only [sliceT]
  rw [posAt_stmt, posAt_stmt]
  exact sliceL_getD _ j _ c 0 (by omega) (by omega)

theorem sliceT_tokens_getD (t : Tape) (env : LLFEnv) (hwf : Wf t env) (j c : Nat)
    (hjc : j + c < stmtCount t)
    (h : t.numberOfJacobians.getD (j + c) 0 = statementLowLevelFunctionTag) :
    (sliceT t env j (stmtCount t)).llfTokens.getD
        ((posAt t env (j + c)).token - (posAt t env j).token) 0
      = t.llfTokens.getD (posAt t env (j + c)).token 0 := by
  obtain ⟨m1, m2, m3, m4, m5⟩ := posAt_mono t env j (j + c) (by omega)
  obtain ⟨n1, n2, n3, n4, n5⟩ := posAt_mono t env (j + c + 1) (stmtCount t) (by omega)
  have htok1 : (posAt t env (j + c + 1)).token = (posAt t env (j + c)).token + 1 := by
    rw [posAt_succ_llf t env (j + c) h]
  have htlen : t.llfTokens.length = (posAt t env (stmtCount t)).token := by
    rw [hwf.2.2.1]; rfl
  simp only [sliceT]
  rw [sliceL_getD _ _ _ _ 0 (by omega) (by omega)]
  congr 1
  omega

theorem sliceT_fixed_slice (t : Tape) (env : LLFEnv) (hwf : Wf t env) (j c n : Nat)
    (hjc : j + c ≤ stmtCount t)
    (hbound : (posAt t env (j + c)).fixedB + n ≤ (posAt t env (stmtCount t)).fixedB) :
    sliceL (sliceT t env j (stmtCount t)).llfFixedData
        ((posAt t env (j + c)).fixedB - (posAt t env j).fixedB) n
      = sliceL t.llfFixedData (posAt t env (j + c)).fixedB n := by
  obtain ⟨m1, m2, m3, m4, m5⟩ := posAt_mono t env j (j + c) (by omega)
  simp only [sliceT]
  rw [sliceL_sliceL _ _ _ _ _ (by omega)]
  congr 1
  omega

theorem sliceT_dyn_slice (t : Tape) (env : LLFEnv) (hwf : Wf t env) (j c n : Nat)
    (hjc : j + c ≤ stmtCount t)
    (hbound : (posAt t env (j + c)).dynB + n ≤ (posAt t env (stmtCount t)).dynB) :
    sliceL (sliceT t env j (stmtCount t)).llfDynData
        ((posAt t env (j + c)).dynB - (posAt t env j).dynB) n
      = sliceL t.llfDynData (posAt t env (j + c)).dynB n := by
  obtain ⟨m1, m2, m3, m4, m5⟩ := posAt_mono t env j (j + c) (by omega)
  simp only [sliceT]
  rw [sliceL_sliceL _ _ _ _ _ (by omega)]
  congr 1
  omega

theorem posAt_sliceT (t : Tape) (env : LLFEnv) (hwf : Wf t env) (j : Nat)
    (hj : j ≤ stmtCount t) :
    ∀ c, c ≤ stmtCount t - j →
      posAt (sliceT t env j (stmtCount t)) env c
        = posSub (posAt t env (j + c)) (posAt t env j) := by
  intro c
  induction c with
  | zero =>
    intro _
    simp [posAt, posSub, zeroPosition, Nat.sub_self]
  | succ c ih =>
    intro hc
    have hjc : j + c < stmtCount t := by omega
    have hread := sliceT_nums_getD t env hwf j c hjc
    have hstmtj := posAt_stmt t env j
    have hstmtc := posAt_stmt t env (j + c)
    obtain ⟨m1, m2, m3, m4, m5⟩ := posAt_mono t env j (j + c) (by omega)
    by_cases h : t.numberOfJacobians.getD (j + c) 0 = statementLowLevelFunctionTag
    · have hsl_slice := posAt_succ_llf (sliceT t env j (stmtCount t)) env c
        (by rw [hread]; exact h)
      have hsl := posAt_succ_llf t env (j + c) h
      obtain ⟨n1, n2, n3, n4, n5⟩ := posAt_mono t env (j + c + 1) (stmtCount t) (by omega)
      have htokread := sliceT_tokens_getD t env hwf j c hjc h
      rw [hsl_slice, ih (by omega)]
      simp only [posSub]
      rw [htokread]
      have hfixB : (posAt t env (j + c + 1)).fixedB
          = (posAt t env (j + c)).fixedB
            + (env (t.llfTokens.getD (posAt t env (j + c)).token 0)).fixedSize := by
        rw [hsl]
      have hfix := sliceT_fixed_slice t env hwf j c
        (env (t.llfTokens.getD (posAt t env (j + c)).token 0)).fixedSize
        (by omega) (by omega)
      rw [hfix]
      rw [show j + (c + 1) = (j + c) + 1 by omega, hsl]
      simp only [posSub, Position.mk.injEq]
      refine ⟨?_, ?_, ?_, ?_, ?_⟩ <;> first | trivial | omega
    · have hsn_slice := posAt_succ_normal (sliceT t env j (stmtCount t)) env c
        (by rw [hread]; exact h)
      have hsn := posAt_succ_normal t env (j + c) h
      rw [hsn_slice, ih (by omega), hread]
      rw [show j + (c + 1) = (j + c) + 1 by omega, hsn]
      simp only [posSub, Position.mk.injEq]
      refine ⟨?_, ?_, ?_, ?_, ?_⟩ <;> first | trivial | omega

theorem sliceT_wf (t : Tape) (env : LLFEnv) (hwf : Wf t env) (j : Nat)
    (hj : j ≤ stmtCount t) :
    Wf (sliceT t env j (stmtCount t)) env := by
  obtain ⟨hlen1, hlen2, hpos, hllf⟩ := hwf
  have hlhslen : t.lhsIdentifiers.length = stmtCount t := rfl
  have hNstmt := posAt_stmt t env (stmtCount t)
  have hjstmt := posAt_stmt t env j
  have hjaclen : (posAt t env (stmtCount t)).jac = t.rhsJacobians.length := by
    rw [hpos]; rfl
  have htoklen : (posAt t env (stmtCount t)).token = t.llfTokens.length := by
    rw [hpos]; rfl
  have hfixlen : (posAt t env (stmtCount t)).fixedB = t.llfFixedData.length := by
    rw [hpos]; rfl
  have hdynlen : (posAt t env (stmtCount t)).dynB = t.llfDynData.length := by
    rw [hpos]; rfl
  obtain ⟨m1, m2, m3, m4, m5⟩ := posAt_mono t env j (stmtCount t) hj
  have hsc : stmtCount (sliceT t env j (stmtCount t)) = stmtCount t - j := by
    show (sliceT t env j (stmtCount t)).lhsIdentifiers.length = stmtCount t - j
    simp only [sliceT]
    rw [sliceL_length _ _ _ (by omega)]
    omega
  refine ⟨?_, ?_, ?_, ?_⟩
  · show (sliceT t env j (stmtCount t)).numberOfJacobians.length
      = (sliceT t env j (stmtCount t)).lhsIdentifiers.length
    simp only [sliceT]
    rw [sliceL_length _ _ _ (by omega), sliceL_length _ _ _ (by omega)]
  · show (sliceT t env j (stmtCount t)).rhsIdentifiers.length
      = (sliceT t env j (stmtCount t)).rhsJacobians.length
    simp only [sliceT]
    rw [sliceL_length _ _ _ (by omega), sliceL_length _ _ _ (by omega)]
  · rw [hsc]
    rw [posAt_sliceT t env ⟨hlen1, hlen2, hpos, hllf⟩ j hj (stmtCount t - j) (le_refl _)]
    rw [show j + (stmtCount t - j) = stmtCount t by omega]
    show _ = getPosition (sliceT t env j (stmtCount t))
    simp only [getPosition, sliceT, posSub]
    rw [sliceL_length _ _ _ (by omega), sliceL_length _ _ _ (by omega),
      sliceL_length _ _ _ (by omega), sliceL_length _ _ _ (by omega),
      sliceL_length _ _ _ (by omega)]
  · intro s hs htag
    rw [hsc] at hs
    have h1 := sliceT_nums_getD t env ⟨hlen1, hlen2, hpos, hllf⟩ j s (by omega)
    have h2 := sliceT_lhs_getD t env ⟨hlen1, hlen2, hpos, hllf⟩ j s (by omega)
    rw [h2]
    rw [h1] at htag
    exact hllf (j + s) (by omega) htag

theorem tapeExt (a b : Tape)
    (h1 : a.lhsIdentifiers = b.lhsIdentifiers)
    (h2 : a.numberOfJacobians = b.numberOfJacobians)
    (h3 : a.rhsJacobians = b.rhsJacobians)
    (h4 : a.rhsIdentifiers = b.rhsIdentifiers)
    (h5 : a.llfTokens = b.llfTokens)
    (h6 : a.llfFixedData = b.llfFixedData)
    (h7 : a.llfDynData = b.llfDynData) : a = b := by
  cases a
  cases b
  simp_all

theorem sliceT_zero_full (t : Tape) (env : LLFEnv) (hwf : Wf t env) :
    sliceT t env 0 (stmtCount t) = t := by
  obtain ⟨hlen1, hlen2, hpos, _⟩ := hwf
  have hNstmt := posAt_stmt t env (stmtCount t)
  have hjaclen : (posAt t env (stmtCount t)).jac = t.rhsJacobians.length := by
    rw [hpos]; rfl
  have htoklen : (posAt t env (stmtCount t)).token = t.llfTokens.length := by
    rw [hpos]; rfl
  have hfixlen : (posAt t env (stmtCount t)).fixedB = t.llfFixedData.length := by
    rw [hpos]; rfl
  have hdynlen : (posAt t env (stmtCount t)).dynB = t.llfDynData.length := by
    rw [hpos]; rfl
  have hzero : posAt t env 0 = zeroPosition := rfl
  apply tapeExt
  · simp only [sliceT, hzero, zeroPosition, Nat.sub_zero]
    rw [hNstmt]
    exact sliceL_full t.lhsIdentifiers
  · simp only [sliceT, hzero, zeroPosition, Nat.sub_zero]
    rw [hNstmt, show stmtCount t = t.numberOfJacobians.length from hlen1.symm]
    exact sliceL_full t.numberOfJacobians
  · simp only [sliceT, hzero, zeroPosition, Nat.sub_zero]
    rw [hjaclen]
    exact sliceL_full t.rhsJacobians
  · simp only [sliceT, hzero, zeroPosition, Nat.sub_zero]
    rw [hjaclen, show t.rhsJacobians.length = t.rhsIdentifiers.length from hlen2.symm]
    exact sliceL_full t.rhsIdentifiers
  · simp only [sliceT, hzero, zeroPosition, Nat.sub_zero]
    rw [htoklen]
    exact sliceL_full t.llfTokens
  · simp only [sliceT, hzero, zeroPosition, Nat.sub_zero]
    rw [hfixlen]
    exact sliceL_full t.llfFixedData
  · simp only [sliceT, hzero, zeroPosition, Nat.sub_zero]
    rw [hdynlen]
    exact sliceL_full t.llfDynData

theorem resetTo_posAt (t : Tape) (env : LLFEnv) (i : Nat) :
    resetTo t (posAt t env i) = sliceT t env 0 i := by
  apply tapeExt <;> simp [resetTo, sliceT, sliceL, posAt, zeroPosition]

/-- The concrete example recording is a well-formed recording. -/
theorem exampleTape_wf : Wf exampleTape exampleEnv :=
  ⟨by decide, by decide, by decide, by decide⟩

/-- C6: `append(srcTape, start, end)` walks the source range exactly
once in the forward direction without modifying any adjoints (no
adjoint vector is involved in the walk at all): every ordinary
statement is re-pushed into the destination via `reserve`,
`pushStmtData` and one Jacobian push per argument — so the destination
streams are extended by exactly the source range's target identifiers,
argument counts and (partial, argument-identifier) pairs in order — and
every external-function block is copied byte-for-byte: its fixed and
dynamic sizes come from the non-mutating count call mode (the pure
`fixedSize`/`dynSize` fields) and exactly that many bytes are copied
verbatim from the source byte streams, along with the token. -/
theorem claim_C6 (dst src : Tape) (env : LLFEnv) (hwf : Wf src env) (i j : Nat)
    (hij : i ≤ j) (hj : j ≤ stmtCount src) :
    append dst env src (posAt src env i) (posAt src env j)
      = concatT dst (sliceT src env i j) :=
  append_slices dst src env hwf i j hij hj

/-- Witness for C6: appending the whole example recording onto an empty
tape. -/
theorem claim_C6_witness :
    append emptyTape exampleEnv exampleTape (posAt exampleTape exampleEnv 0)
        (posAt exampleTape exampleEnv 2)
      = concatT emptyTape (sliceT exampleTape exampleEnv 0 2) :=
  claim_C6 emptyTape exampleTape exampleEnv exampleTape_wf 0 2 (by omega) (by decide)

/-- C5: `erase(start, end)` removes the recorded range [start, end) by
appending the tail [end, tapeEnd) into a scratch tape, resetting the
source tape back to start, and re-appending the scratch tape's
contents — this is the definition of `erase`, never an in-place
deletion — and afterwards the edited tape is stream-for-stream equal to
the tape in which the range [start, end) was simply never recorded
(prefix up to start followed by the tail), so it produces identical
replay results to that tape in both directions. -/
theorem claim_C5 (t : Tape) (env : LLFEnv) (hwf : Wf t env) (i j : Nat)
    (hij : i ≤ j) (hj : j ≤ stmtCount t) :
    eraseSimple t env (posAt t env i) (posAt t env j)
      = concatT (sliceT t env 0 i) (sliceT t env j (stmtCount t))
    ∧ (∀ endP curP adj,
        evalRev (eraseSimple t env (posAt t env i) (posAt t env j)) env endP curP adj
          = evalRev (concatT (sliceT t env 0 i) (sliceT t env j (stmtCount t)))
              env endP curP adj)
    ∧ (∀ endP curP adj,
        evalFwd (eraseSimple t env (posAt t env i) (posAt t env j)) env endP curP adj
          = evalFwd (concatT (sliceT t env 0 i) (sliceT t env j (stmtCount t)))
              env endP curP adj) := by
  have hmain : eraseSimple t env (posAt t env i) (posAt t env j)
      = concatT (sliceT t env 0 i) (sliceT t env j (stmtCount t)) := by
    have hgp : getPosition t = posAt t env (stmtCount t) := hwf.2.2.1.symm
    simp only [eraseSimple, erase]
    rw [hgp]
    rw [append_slices emptyTape t env hwf j (stmtCount t) hj (le_refl _)]
    rw [concatT_empty_left]
    have hwfs := sliceT_wf t env hwf j hj
    have hgp2 : getPosition (sliceT t env j (stmtCount t))
        = posAt (sliceT t env j (stmtCount t)) env
            (stmtCount (sliceT t env j (stmtCount t))) := hwfs.2.2.1.symm
    rw [hgp2]
    rw [show zeroPosition = posAt (sliceT t env j (stmtCount t)) env 0 from rfl]
    rw [append_slices (resetTo t (posAt t env i)) (sliceT t env j (stmtCount t)) env hwfs
      0 (stmtCount (sliceT t env j (stmtCount t))) (by omega) (le_refl _)]
    rw [sliceT_zero_full (sliceT t env j (stmtCount t)) env hwfs]
    rw [resetTo_posAt t env i]
  exact ⟨hmain, fun e c a => by rw [hmain], fun e c a => by rw [hmain]⟩

/-- Witness for C5: erasing the first statement of the example
recording. -/
theorem claim_C5_witness :
    eraseSimple exampleTape exampleEnv (posAt exampleTape exampleEnv 0)
        (posAt exampleTape exampleEnv 1)
      = concatT (sliceT exampleTape exampleEnv 0 0)
          (sliceT exampleTape exampleEnv 1 (stmtCount exampleTape)) :=
  (claim_C5 exampleTape exampleEnv exampleTape_wf 0 1 (by omega) (by decide)).1

/-- C10: After `erase(start, end, emptyTape)` returns, the helper tape
has been reset to its empty state — its position equals its zero
position — regardless of what the helper tape held when the call was
made; the tail copied into it during the erase is not left behind. -/
theorem claim_C10 (t : Tape) (env : LLFEnv) (start endP : Position) (helper : Tape) :
    (erase t env start endP helper).2 = emptyTape
    ∧ getPosition (erase t env start endP helper).2 = zeroPosition := by
  have h : (erase t env start endP helper).2 = emptyTape := by
    simp [erase, reset, resetTo, zeroPosition, emptyTape]
  exact ⟨h, by rw [h]; rfl⟩

theorem getD_set_self (l : List Int) (i : Nat) (h : i < l.length) :
    (l.set i 0).getD i 0 = 0 := by
  rw [List.getD_eq_getElem?_getD, List.getElem?_set]
  simp [h]

theorem getD_set_ne (l : List Int) (i j : Nat) (h : i ≠ j) :
    (l.set i 0).getD j 0 = l.getD j 0 := by
  rw [List.getD_eq_getElem?_getD, List.getElem?_set, if_neg h, ← List.getD_eq_getElem?_getD]

theorem clearAdjointsLoop_length (t : Tape) (size start : Nat) :
    ∀ c adjoints, (clearAdjointsLoop t size start c adjoints).length = adjoints.length := by
  intro c
  induction c with
  | zero => intro adjoints; rfl
  | succ c ih =>
    intro adjoints
    rw [clearAdjointsLoop, ih]
    split <;> simp

theorem clearAdjointsLoop_unchanged (t : Tape) (size start : Nat) :
    ∀ c adjoints idx,
      (∀ k, k < c → t.lhsIdentifiers.getD (start + k) 0 ≠ idx) →
      (clearAdjointsLoop t size start c adjoints).getD idx 0 = adjoints.getD idx 0 := by
  intro c
  induction c with
  | zero => intro adjoints idx _; rfl
  | succ c ih =>
    intro adjoints idx h
    rw [clearAdjointsLoop, ih _ idx (fun k hk => h k (by omega))]
    split
    · exact getD_set_ne adjoints _ idx (h c (by omega))
    · rfl

theorem clearAdjointsLoop_zero (t : Tape) (start : Nat) :
    ∀ c size adjoints idx, size = adjoints.length → idx < adjoints.length →
      (∃ k, k < c ∧ t.lhsIdentifiers.getD (start + k) 0 = idx) →
      (clearAdjointsLoop t size start c adjoints).getD idx 0 = 0 := by
  intro c
  induction c with
  | zero =>
    intro size adjoints idx _ _ hex
    obtain ⟨k, hk, _⟩ := hex
    omega
  | succ c ih =>
    intro size adjoints idx hsize hidx hex
    rw [clearAdjointsLoop]
    by_cases hc : ∃ k, k < c ∧ t.lhsIdentifiers.getD (start + k) 0 = idx
    · refine ih size _ idx ?_ ?_ hc
      · rw [hsize]
        split <;> simp
      · have : ∀ b : List Int,
            (if t.lhsIdentifiers.getD (start + c) 0 < size
              then adjoints.set (t.lhsIdentifiers.getD (start + c) 0) 0
              else adjoints).length = adjoints.length := by
          intro b
          split <;> simp
        rw [this adjoints]
        exact hidx
    · obtain ⟨k, hk, hP⟩ := hex
      have hkc : k = c := by
        rcases Nat.lt_or_ge k c with h1 | h1
        · exact absurd ⟨k, h1, hP⟩ hc
        · omega
      subst hkc
      have hidxsize : t.lhsIdentifiers.getD (start + k) 0 < size := by
        rw [hP, hsize]
        exact hidx
      rw [if_pos hidxsize, hP]
      rw [clearAdjointsLoop_unchanged t size start k _ idx
        (fun m hm hmP => hc ⟨m, hm, hmP⟩)]
      exact getD_set_self adjoints idx hidx

/-- C7: `clearAdjoints(start, end)` reads only the statement stream
(the walk touches no Jacobian data by construction) and, for every
statement recorded in the range, sets the adjoint slot of that
statement's target identifier to zero if and only if that identifier is
strictly less than the current adjoint-vector size (slots beyond the
size do not exist and the vector is never grown: the length is
preserved); adjoint slots of identifiers that are not the target of any
statement in the range are left unchanged. -/
theorem claim_C7 (t : Tape) (adjoints : List Int) (start endP : Position) :
    (clearAdjoints t adjoints start endP).length = adjoints.length
    ∧ (∀ idx, idx < adjoints.length →
        (∃ s, start.stmt ≤ s ∧ s < endP.stmt ∧ t.lhsIdentifiers.getD s 0 = idx) →
        (clearAdjoints t adjoints start endP).getD idx 0 = 0)
    ∧ (∀ idx,
        ¬ (∃ s, start.stmt ≤ s ∧ s < endP.stmt ∧ t.lhsIdentifiers.getD s 0 = idx) →
        (clearAdjoints t adjoints start endP).getD idx 0 = adjoints.getD idx 0) := by
  refine ⟨clearAdjointsLoop_length t adjoints.length start.stmt _ adjoints, ?_, ?_⟩
  · intro idx hidx hex
    obtain ⟨s, h1, h2, h3⟩ := hex
    refine clearAdjointsLoop_zero t start.stmt (endP.stmt - start.stmt) adjoints.length
      adjoints idx rfl hidx ⟨s - start.stmt, by omega, ?_⟩
    rw [show start.stmt + (s - start.stmt) = s by omega]
    exact h3
  · intro idx hnex
    exact clearAdjointsLoop_unchanged t adjoints.length start.stmt
      (endP.stmt - start.stmt) adjoints idx
      (fun k hk hP => hnex ⟨start.stmt + k, by omega, by omega, hP⟩)

/-- Witness for C7: clearing over the whole example recording zeroes
the slot of target identifier 3 (the target of the first statement). -/
theorem claim_C7_witness :
    (clearAdjoints exampleTape [0, 0, 0, 0, 5] zeroPosition
        (getPosition exampleTape)).getD 3 0 = 0 :=
  (claim_C7 exampleTape [0, 0, 0, 0, 5] zeroPosition (getPosition exampleTape)).2.1 3
    (by decide) ⟨0, by decide, by decide, by decide⟩

/-- C8: Pairing this editing-capable tape type with a linear
(non-reuse) index manager is a configuration fault rejected statically,
before any recording can occur: an instantiation of
`JacobianReuseTape` exists only together with the static assertion that
the index manager's `IsLinear` flag is false, and such instantiations
do exist for reuse index managers. -/
theorem claim_C8 :
    (∀ cfg : JacobianReuseTapeConfig, cfg.indexManager.IsLinear = false)
    ∧ (∃ cfg : JacobianReuseTapeConfig, cfg.indexManager.IsLinear = false) :=
  ⟨fun cfg => cfg.staticAssertReuse, ⟨⟨⟨false⟩, rfl⟩, rfl⟩⟩

theorem getD_set (l : List Int) (i : Nat) (v : Int) (h : i < l.length) :
    (l.set i v).getD i 0 = v := by
  rw [List.getD_eq_getElem?_getD, List.getElem?_set]
  simp [h]

theorem resizeAdjoints_length (a : Adjoints) (n : Nat) :
    (resizeAdjoints a n).data.length = max a.data.length n := by
  unfold resizeAdjoints
  split <;> simp <;> omega

/-- C9: Under the default bounds-checking policy
(`BoundsChecking.True`), a gradient read with an identifier for which
no adjoint slot exists returns the dummy slot at index 0 of the adjoint
vector instead of failing, while a gradient write with an identifier
beyond the current adjoint-vector size implicitly resizes the adjoint
vector so the write succeeds. -/
theorem claim_C9 :
    (∀ (a : Adjoints) (identifier : Nat), a.data.length ≤ identifier →
      getGradient a identifier BoundsChecking.True = a.data.getD 0 0)
    ∧ (∀ (a : Adjoints) (identifier : Nat) (gradient : Int),
        identifier < (setGradient a identifier gradient BoundsChecking.True).data.length
        ∧ (setGradient a identifier gradient BoundsChecking.True).data.getD identifier 0
            = gradient) := by
  constructor
  · intro a identifier h
    unfold getGradient
    rw [if_neg (by omega)]
  · intro a identifier gradient
    have hlen : (setGradient a identifier gradient BoundsChecking.True).data.length
        = max a.data.length (identifier + 1) := by
      show ((resizeAdjoints a (identifier + 1)).data.set identifier gradient).length
        = max a.data.length (identifier + 1)
      rw [List.length_set, resizeAdjoints_length]
    constructor
    · omega
    · show ((resizeAdjoints a (identifier + 1)).data.set identifier gradient).getD
        identifier 0 = gradient
      exact getD_set _ identifier gradient (by rw [resizeAdjoints_length]; omega)

/-- Witness for C9: out-of-bounds read on a two-slot vector returns the
dummy slot, write at index 9 resizes and succeeds. -/
theorem claim_C9_witness :
    getGradient ⟨[5, 7]⟩ 9 BoundsChecking.True = 5
    ∧ 9 < (setGradient ⟨[5, 7]⟩ 9 11 BoundsChecking.True).data.length
    ∧ (setGradient ⟨[5, 7]⟩ 9 11 BoundsChecking.True).data.getD 9 0 = 11 :=
  ⟨claim_C9.1 ⟨[5, 7]⟩ 9 (by decide), (claim_C9.2 ⟨[5, 7]⟩ 9 11).1,
    (claim_C9.2 ⟨[5, 7]⟩ 9 11).2⟩

/-- A callback table with one registered external function: two fixed
bytes, one dynamic byte, and a reverse callback that bumps adjoint
slot 1. -/
def exampleEnvLLF : LLFEnv :=
  fun _ => ⟨2, fun _ => 1, fun _ _ a => a, fun _ _ a => updateAdj a 1 (a 1 + 1)⟩

/-- A concrete three-statement recording whose middle statement is an
external-function block (token 7, fixed bytes [10, 11], dynamic byte
[12]). -/
def exampleTapeLLF : Tape :=
  { lhsIdentifiers := [3, 0, 4],
    numberOfJacobians := [1, statementLowLevelFunctionTag, 1],
    rhsJacobians := [2, 5],
    rhsIdentifiers := [1, 3],
    llfTokens := [7],
    llfFixedData := [10, 11],
    llfDynData := [12] }

/-- The recording with an external-function block is well-formed, so
the range-editing theorems apply to tapes containing such blocks. -/
theorem exampleTapeLLF_wf : Wf exampleTapeLLF exampleEnvLLF :=
  ⟨by decide, by decide, by decide, by decide⟩

/-- Sanity check: erasing the external-function block from the middle
of the recording leaves exactly the two ordinary statements. -/
theorem eraseSimple_exampleTapeLLF_middle :
    eraseSimple exampleTapeLLF exampleEnvLLF (posAt exampleTapeLLF exampleEnvLLF 1)
        (posAt exampleTapeLLF exampleEnvLLF 2)
      = ⟨[3, 4], [1, 1], [2, 5], [1, 3], [], [], []⟩ := by
  decide

/-- Sanity check: erasing the first ordinary statement keeps the
external-function block byte-for-byte (token, fixed and dynamic
bytes). -/
theorem eraseSimple_exampleTapeLLF_first :
    eraseSimple exampleTapeLLF exampleEnvLLF (posAt exampleTapeLLF exampleEnvLLF 0)
        (posAt exampleTapeLLF exampleEnvLLF 1)
      = ⟨[0, 4], [statementLowLevelFunctionTag, 1], [5], [3], [7], [10, 11], [12]⟩ := by
  decide
